import Mathlib

/-!
# Verification of the RolePlayAI uploader core

A shallow embedding of the package-uploader core (content-defined chunking,
chunk store, manifest model, delta detection, upload orchestration and
version promotion), with theorems checking the specification's claims.

Conventions of the embedding:
* JS objects whose fields may be `undefined` are structures with `Option`
  fields; JS truthiness of a string field (`undefined` and `""` are falsy)
  is `strTruthy`.
* Machine arithmetic (the 64-bit gear hash) is `Nat` with explicit `% 2 ^ 64`.
* Async functions that can `throw` return `Except String _`.
* The SHA-256 digest is an abstract parameter `sha : List Nat → String`;
  remote/local object stores are oracles (`String → Bool`,
  `String → Option (List Nat)`).
-/

namespace Uploader

/-- JS `options.x || default` for a numeric option: `undefined` and `0` are falsy. -/
def jsOrNat (o : Option Nat) (d : Nat) : Nat :=
  match o with
  | none => d
  | some v => if v = 0 then d else v

/-- JS `a || b` for an optional string: `undefined` and `""` are falsy. -/
def jsOrStr (o : Option String) (d : String) : String :=
  match o with
  | none => d
  | some s => if s = "" then d else s

/-- JS truthiness of an optional string (`undefined` and `""` are falsy). -/
def strTruthy (o : Option String) : Bool :=
  match o with
  | none => false
  | some s => s ≠ ""

/-- JS string interpolation of a possibly-undefined string value. -/
def jsStr (o : Option String) : String :=
  match o with
  | none => "undefined"
  | some s => s

/-- A chunk entry of a manifest (`{hash, size, offset, url}`), any field of
which may be absent in malformed or not-yet-published manifests.  `data` is
the in-memory byte payload some chunk objects carry. -/
structure ChunkJS where
  hash : Option String
  size : Option Nat
  offset : Option Nat
  url : Option String
  data : Option (List Nat)
deriving Repr, DecidableEq

/-- A file entry of a manifest.  Chunk-based manifests use
`{filename, totalSize, chunks}`; the legacy flat format uses `{path, url}`. -/
structure FileJS where
  filename : Option String
  path : Option String
  url : Option String
  totalSize : Option Nat
  chunks : Option (List ChunkJS)
deriving Repr, DecidableEq

/-- A manifest object (`{version, buildType, manifestType, files}`). -/
structure ManifestJS where
  version : Option String
  buildType : Option String
  manifestType : Option String
  files : Option (List FileJS)
deriving Repr, DecidableEq

/-- `detectManifestType` from manifestUtils.js: an explicit
`manifestType: "chunk-based"` tag wins; otherwise a non-empty `files` array
whose first file has a `chunks` array is chunk-based; anything else is the
legacy file-based format. -/
def detectManifestType (m : ManifestJS) : String :=
  if m.manifestType = some "chunk-based" then "chunk-based"
  else
    match m.files with
    | some (f :: _) =>
      match f.chunks with
      | some _ => "chunk-based"
      | none => "file-based"
    | _ => "file-based"

/-- The per-chunk checks of `validateChunkManifest`: `hash`, `size`, `offset`
and `url` are all required; the first offending chunk raises.  There is no
lenient mode in the source: the `url` check is unconditional. -/
def validateChunks (fname : String) : List ChunkJS → Except String Unit
  | [] => Except.ok ()
  | c :: rest =>
    if ¬ strTruthy c.hash then
      Except.error ("Chunk missing hash in file " ++ fname)
    else if c.size = none then
      Except.error ("Chunk missing size in file " ++ fname)
    else if c.offset = none then
      Except.error ("Chunk missing offset in file " ++ fname)
    else if ¬ strTruthy c.url then
      Except.error ("Chunk missing url in file " ++ fname)
    else validateChunks fname rest

/-- The per-file checks of `validateChunkManifest`.  A `totalSize` mismatch
with the sum of chunk sizes only logs a warning in the source, so it has no
effect on the result here. -/
def validateFiles : List FileJS → Except String Unit
  | [] => Except.ok ()
  | f :: rest =>
    if ¬ strTruthy f.filename then Except.error "File missing filename"
    else
      match f.chunks with
      | none => Except.error ("File " ++ jsStr f.filename ++ " missing chunks array")
      | some cs =>
        match validateChunks (jsStr f.filename) cs with
        | Except.error e => Except.error e
        | Except.ok _ => validateFiles rest

/-- `validateChunkManifest` from manifestUtils.js (the copy shipped in this
repository): stops at the first structural error, requires remote `url`s on
every chunk, and only warns on `totalSize` mismatches. -/
def validateChunkManifest (m : ManifestJS) : Except String Unit :=
  if ¬ strTruthy m.version then Except.error "Manifest missing version"
  else
    match m.files with
    | none => Except.error "Manifest missing files array"
    | some fs => validateFiles fs

/-- The per-file checks of `validateFileManifest` (legacy flat manifests). -/
def validateFilesLegacy : List FileJS → Except String Unit
  | [] => Except.ok ()
  | f :: rest =>
    if ¬ strTruthy f.path then Except.error "File missing path"
    else if ¬ strTruthy f.url then
      Except.error ("File " ++ jsStr f.path ++ " missing url")
    else validateFilesLegacy rest

/-- `validateFileManifest` from manifestUtils.js. -/
def validateFileManifest (m : ManifestJS) : Except String Unit :=
  if ¬ strTruthy m.version then Except.error "Manifest missing version"
  else
    match m.files with
    | none => Except.error "Manifest missing files array"
    | some fs => validateFilesLegacy fs

/-- The result of `parseManifest`: the detected type tag and the manifest. -/
structure ParsedManifest where
  type : String
  manifest : ManifestJS
deriving Repr, DecidableEq

/-- `parseManifest` from manifestUtils.js.  It takes one parameter; the
`requireUrls` flag some callers pass as a second argument is silently ignored
by JavaScript.  (JSON-string inputs are parsed before reaching this model.) -/
def parseManifest (m : ManifestJS) : Except String ParsedManifest :=
  let t := detectManifestType m
  if t = "chunk-based" then
    match validateChunkManifest m with
    | Except.error e => Except.error e
    | Except.ok _ => Except.ok ⟨t, m⟩
  else
    match validateFileManifest m with
    | Except.error e => Except.error e
    | Except.ok _ => Except.ok ⟨t, m⟩

/-- A chunk together with the filename of its owning file, as produced by
`getAllChunks` (`{...chunk, file: file.filename}`). -/
structure ChunkWithFile where
  hash : Option String
  size : Option Nat
  offset : Option Nat
  url : Option String
  data : Option (List Nat)
  file : Option String
deriving Repr, DecidableEq

/-- `getAllChunks` from manifestUtils.js: flatten every file's chunks.  All
call sites invoke it on validated chunk-based manifests, where `files` and
every `chunks` field are arrays, so the `getD []` defaults are unreachable
there (the JS code would throw on `undefined`). -/
def getAllChunks (m : ManifestJS) : List ChunkWithFile :=
  (m.files.getD []).flatMap fun f =>
    (f.chunks.getD []).map fun c =>
      ⟨c.hash, c.size, c.offset, c.url, c.data, f.filename⟩

/-! ## Delta detector (deltaDetector.js) -/

/-- `file.chunks.map(c => c.hash).join(',')` from `hasFileChanged`
(`Array.prototype.join` renders `undefined` as the empty string). -/
def hashesJoined (f : FileJS) : String :=
  String.intercalate "," ((f.chunks.getD []).map fun c => c.hash.getD "")

/-- The hashes of a file's chunks, as collected into the chunk sets of
`detectDelta`.  Both manifests are validated chunk-based manifests by the
time these sets are built, so every hash is a present, non-empty string. -/
def fileHashes (f : FileJS) : List String :=
  (f.chunks.getD []).map fun c => c.hash.getD ""

/-- `hasFileChanged` from deltaDetector.js: differing `totalSize`
(strict `!==`), differing chunk count, or differing comma-joined hash
sequences. -/
def hasFileChanged (oldFile newFile : FileJS) : Bool :=
  if oldFile.totalSize ≠ newFile.totalSize then true
  else if (oldFile.chunks.getD []).length ≠ (newFile.chunks.getD []).length then true
  else hashesJoined oldFile ≠ hashesJoined newFile

/-- The filename-keyed `Map` of `detectDelta`, built by `forEach`/`set` (a
later file with the same name overwrites an earlier one) and queried with
`get`. -/
def filesMapGet (files : List FileJS) (k : Option String) : Option FileJS :=
  files.foldl (fun acc f => if f.filename = k then some f else acc) none

/-- Insertion into a JS `Set` modelled as an insertion-ordered duplicate-free
list. -/
def setAdd (s : List String) (x : String) : List String :=
  if s.contains x then s else s ++ [x]

/-- `new Set(xs)` / repeated `Set.prototype.add` over a list. -/
def setOfList (xs : List String) : List String :=
  xs.foldl setAdd []

/-- The derived `stats` block of a `detectDelta` result. -/
structure DeltaStats where
  totalFiles : Nat
  newFilesCount : Nat
  changedFilesCount : Nat
  deletedFilesCount : Nat
  chunksToUploadCount : Nat
  totalChunksInNew : Nat
deriving Repr, DecidableEq

/-- The changeset returned by `detectDelta`. -/
structure Delta where
  changedFiles : List FileJS
  newFiles : List FileJS
  deletedFiles : List FileJS
  changedChunks : List String
  newChunks : List String
  chunksToUpload : List String
  chunksToUploadDetails : List ChunkWithFile
  stats : DeltaStats
deriving Repr, DecidableEq

/-- `detectDelta` from deltaDetector.js: parse and validate both manifests,
reject non-chunk-based inputs, classify files as new/changed/deleted, and
compute the chunk sets; `chunksToUpload` is the union of the new-file and
changed-file hash sets with every hash already present anywhere in the old
manifest filtered out. -/
def detectDelta (oldM newM : ManifestJS) : Except String Delta :=
  match parseManifest oldM with
  | Except.error e => Except.error e
  | Except.ok oldParsed =>
    match parseManifest newM with
    | Except.error e => Except.error e
    | Except.ok newParsed =>
      if oldParsed.type ≠ "chunk-based" ∨ newParsed.type ≠ "chunk-based" then
        Except.error "Both manifests must be chunk-based"
      else
        let old := oldParsed.manifest
        let newManifest := newParsed.manifest
        let oldFiles := old.files.getD []
        let newFilesAll := newManifest.files.getD []
        let newFiles := newFilesAll.filter fun f => (filesMapGet oldFiles f.filename).isNone
        let changedFiles := newFilesAll.filter fun f =>
          match filesMapGet oldFiles f.filename with
          | some oldFile => hasFileChanged oldFile f
          | none => false
        let deletedFiles := oldFiles.filter fun f => (filesMapGet newFilesAll f.filename).isNone
        let changedChunkSet := setOfList (changedFiles.flatMap fileHashes)
        let newChunkSet := setOfList (newFiles.flatMap fileHashes)
        let oldChunkSet := setOfList ((getAllChunks old).map fun c => c.hash.getD "")
        let uniqueNewChunks := newChunkSet.filter fun h => ¬ oldChunkSet.contains h
        let uniqueChangedChunks := changedChunkSet.filter fun h => ¬ oldChunkSet.contains h
        let chunksToUpload := setOfList (uniqueNewChunks ++ uniqueChangedChunks)
        let allNewChunks := getAllChunks newManifest
        let details := allNewChunks.filter fun c => chunksToUpload.contains (c.hash.getD "")
        Except.ok
          { changedFiles := changedFiles
            newFiles := newFiles
            deletedFiles := deletedFiles
            changedChunks := uniqueChangedChunks
            newChunks := uniqueNewChunks
            chunksToUpload := chunksToUpload
            chunksToUploadDetails := details
            stats :=
              { totalFiles := newFilesAll.length
                newFilesCount := newFiles.length
                changedFilesCount := changedFiles.length
                deletedFilesCount := deletedFiles.length
                chunksToUploadCount := chunksToUpload.length
                totalChunksInNew := allNewChunks.length } }

/-! ## Remote key layout and verification (r2Uploader.js) -/

/-- The deterministic remote key of a chunk:
`{buildType}/{version}/chunks/{hash[0:2]}/{hash}`. -/
def chunkKey (buildType version hash : String) : String :=
  buildType ++ "/" ++ version ++ "/chunks/" ++ hash.take 2 ++ "/" ++ hash

/-- The "latest-for-buildType" pointer object key. -/
def latestManifestKey (buildType : String) : String :=
  buildType ++ "/roleplayai_manifest.json"

/-- The immutable version-pinned manifest key. -/
def versionManifestKey (buildType version : String) : String :=
  buildType ++ "/" ++ version ++ "/manifest.json"

/-- One entry of `existingChunks`/`missingChunks` in a verification result. -/
structure VChunk where
  hash : String
  size : Nat
  key : String
deriving Repr, DecidableEq

/-- The result of `R2Uploader.verifyManifest`. -/
structure VerifyResult where
  totalChunks : Nat
  existingChunks : List VChunk
  missingChunks : List VChunk
  totalSize : Nat
  existingSize : Nat
  missingSize : Nat
  allChunksExist : Bool
deriving Repr, DecidableEq

/-- `R2Uploader.verifyManifest`: purely read-only; checks every chunk of the
manifest against the remote `exists` oracle at its deterministic key (built
from the manifest's own `version` field) and partitions chunks into existing
and missing.  Validated manifests carry `hash` and `size` on every chunk, so
the `getD` defaults are unreachable at the source's call sites. -/
def verifyStep (store : String → Bool) (buildType version : String)
    (r : VerifyResult) (c : ChunkWithFile) : VerifyResult :=
  let h := c.hash.getD ""
  let sz := c.size.getD 0
  let key := chunkKey buildType version h
  if store key then
    { r with existingChunks := r.existingChunks ++ [⟨h, sz, key⟩]
             totalSize := r.totalSize + sz
             existingSize := r.existingSize + sz }
  else
    { r with missingChunks := r.missingChunks ++ [⟨h, sz, key⟩]
             totalSize := r.totalSize + sz
             missingSize := r.missingSize + sz }

def verifyManifest (store : String → Bool) (m : ManifestJS) (buildType : String) :
    VerifyResult :=
  let version := jsStr m.version
  let allChunks := getAllChunks m
  let r := allChunks.foldl (verifyStep store buildType version)
    ⟨allChunks.length, [], [], 0, 0, 0, false⟩
  { r with allChunksExist := r.missingChunks.length = 0 }

/-- The fatal promotion-guard message
(`Cannot promote version ...: ... chunks are missing in R2. ...`), a
concatenation exactly as built by the source's template literal. -/
def promoteErrorMsg (version : String) (missingCount : Nat) : String :=
  "Cannot promote version " ++ version ++ ": " ++ toString missingCount ++
    " chunks are missing in R2. Please ensure all chunks are uploaded before promoting."

/-- `chunk.url` rewritten to the deterministic remote key for every chunk of
every file, as done by `promoteVersion` (and `uploadManifest`) before
republishing. -/
def rewriteChunkUrls (m : ManifestJS) (version buildType : String) : ManifestJS :=
  { m with files := some ((m.files.getD []).map fun f =>
      { f with chunks := some ((f.chunks.getD []).map fun c =>
          { c with url := some (chunkKey buildType version (c.hash.getD "")) }) }) }

/-- The success payload of `promoteVersion`. -/
structure PromoteResult where
  version : String
  buildType : String
  latestKey : String
  totalChunks : Nat
deriving Repr, DecidableEq

/-- `R2Uploader.promoteVersion` on a locally supplied manifest (the fetched
manifest of the remote path feeds the identical verify/republish logic): the
manifest's `version` is forced to the requested one, every chunk's remote
existence is verified, and promotion either fails with the missing count
before any write, or rewrites chunk URLs and writes the latest-for-buildType
pointer object only.  The first component is the ordered list of
`putObject` writes `(key, body)` performed (puts themselves are modelled as
succeeding). -/
def promoteVersion (store : String → Bool) (version buildType : String)
    (localManifest : ManifestJS) :
    List (String × ManifestJS) × Except String PromoteResult :=
  let manifest := { localManifest with version := some version }
  let vr := verifyManifest store manifest buildType
  if ¬ vr.allChunksExist then
    ([], Except.error (promoteErrorMsg version vr.missingChunks.length))
  else
    let published := rewriteChunkUrls { manifest with buildType := some buildType }
      version buildType
    let latestKey := latestManifestKey buildType
    ([(latestKey, published)],
      Except.ok ⟨version, buildType, latestKey, vr.totalChunks⟩)

/-! ## Upload orchestration (uploadManager.js) -/

/-- The `stats` block returned by `UploadManager.upload`. -/
structure UploadStats where
  totalChunks : Nat
  uploadedChunks : Nat
  skippedChunks : Nat
  failedChunks : Nat
deriving Repr, DecidableEq

/-- The `{success, stats}` object returned by `UploadManager.upload`. -/
structure UploadResult where
  success : Bool
  stats : UploadStats
deriving Repr, DecidableEq

/-- How one worklist item fares inside the chunk loop of
`UploadManager.upload`: a missing local chunk file or a failed remote put
lands in the `catch` branch (`failed`); a chunk already present remotely is
`skipped`; otherwise it is `uploaded`. -/
inductive ChunkOutcome where
  | uploaded
  | skipped
  | failed
deriving Repr, DecidableEq

/-- Classify one chunk of the worklist, mirroring the `try`/`catch` body of
the upload loop: `fs.access` failure on the local chunk path throws
(`failed`); `objectExists` at the deterministic key skips; `uploadFile`
success uploads, failure throws (`failed`).  `localExists` is keyed by hash
(the local path is a function of the hash alone). -/
def chunkOutcome (localExists remoteExists uploadOk : String → Bool)
    (version buildType : String) (c : ChunkWithFile) : ChunkOutcome :=
  let h := c.hash.getD ""
  if ¬ localExists h then ChunkOutcome.failed
  else if remoteExists (chunkKey buildType version h) then ChunkOutcome.skipped
  else if uploadOk (chunkKey buildType version h) then ChunkOutcome.uploaded
  else ChunkOutcome.failed

/-- The chunk loop of `UploadManager.upload`: every worklist item updates
exactly one of the three counters and the loop always continues to the next
item (a per-chunk failure is caught, counted and not re-thrown). -/
def uploadChunksLoop (localExists remoteExists uploadOk : String → Bool)
    (version buildType : String) (chunks : List ChunkWithFile) : UploadStats :=
  chunks.foldl
    (fun s c =>
      match chunkOutcome localExists remoteExists uploadOk version buildType c with
      | ChunkOutcome.uploaded => { s with uploadedChunks := s.uploadedChunks + 1 }
      | ChunkOutcome.skipped => { s with skippedChunks := s.skippedChunks + 1 }
      | ChunkOutcome.failed => { s with failedChunks := s.failedChunks + 1 })
    ⟨chunks.length, 0, 0, 0⟩

/-- `UploadManager.upload` after the worklist is fixed: runs the chunk loop
and returns `{success: true, stats}` — partial-failure counts are carried in
the result rather than thrown.  (The subsequent manifest/version-file
uploads, whose failures are fatal by design, are outside this model.) -/
def uploadRun (localExists remoteExists uploadOk : String → Bool)
    (version buildType : String) (chunks : List ChunkWithFile) : UploadResult :=
  ⟨true, uploadChunksLoop localExists remoteExists uploadOk version buildType chunks⟩

/-- The delta-mode preamble of `UploadManager.upload`: the effective build
type is the new manifest's `buildType` when truthy, else the provided one;
an old manifest with a truthy, different `buildType` is a hard error raised
before `detectDelta` runs. -/
def uploadDeltaPrep (oldM newM : ManifestJS) (providedBuildType : String) :
    Except String Delta :=
  let buildType := jsOrStr newM.buildType providedBuildType
  if strTruthy oldM.buildType ∧ oldM.buildType ≠ some buildType then
    Except.error ("Cannot compare manifests: old manifest is " ++ jsStr oldM.buildType ++
      " but new manifest is " ++ buildType ++
      ". Delta comparison only works within the same build type.")
  else detectDelta oldM newM

/-! ## Content-defined chunking (chunkManager.js, class FastCDC) -/

/-- The chunk-size configuration of a `FastCDC` instance. -/
structure FastCDC where
  minSize : Nat
  avgSize : Nat
  maxSize : Nat
deriving Repr, DecidableEq

/-- The `FastCDC` constructor: each size option defaults (via JS `||`, so `0`
also falls back) to 5 MiB / 10 MiB / 20 MiB. -/
def FastCDC.make (minOpt avgOpt maxOpt : Option Nat) : FastCDC :=
  { minSize := jsOrNat minOpt (5 * 1024 * 1024)
    avgSize := jsOrNat avgOpt (10 * 1024 * 1024)
    maxSize := jsOrNat maxOpt (20 * 1024 * 1024) }

/-- `calculateMask`: `(1 << floor(log2 avgSize)) - 1`.  (The JS shift is a
32-bit operation; the sizes the tool uses keep `floor(log2 avgSize)` far
below 31, where the two agree.) -/
def calculateMask (avgSize : Nat) : Nat :=
  2 ^ Nat.log2 avgSize - 1

/-- The boundary mask of a configuration. -/
def FastCDC.mask (c : FastCDC) : Nat :=
  calculateMask c.avgSize

/-- `generateGearTable`: entry `i` is `i * 0x9e3779b97f4a7c15` truncated to
64 bits. -/
def gearTable (i : Nat) : Nat :=
  (i * 0x9e3779b97f4a7c15) % 2 ^ 64

/-- `updateHash`: `hash = ((hash << 1) + gear[byte]) & 0xffffffffffffffff`. -/
def updateHash (hash byte : Nat) : Nat :=
  (hash * 2 + gearTable byte) % 2 ^ 64

/-- `isChunkBoundary`: no boundary below `minSize`, a forced boundary at or
above `maxSize`, otherwise a boundary when the masked gear hash is zero. -/
def isChunkBoundary (c : FastCDC) (hash position : Nat) : Bool :=
  if position < c.minSize then false
  else if position ≥ c.maxSize then true
  else Nat.land hash c.mask == 0

/-- A chunk emitted by the chunker: content digest, byte length, byte offset
within the source, and the payload bytes. -/
structure ChunkRec where
  hash : String
  size : Nat
  offset : Nat
  data : List Nat
deriving Repr, DecidableEq

/-- The byte loop of `chunkBuffer`: feed each byte to the gear hash and cut a
chunk whenever `isChunkBoundary` fires at the current in-chunk position;
returns the emitted chunks and the final `chunkStart`. -/
def chunkBufferGo (sha : List Nat → String) (c : FastCDC) (buf : List Nat) :
    List Nat → Nat → Nat → Nat → List ChunkRec → List ChunkRec × Nat
  | [], _offset, chunkStart, _hash, acc => (acc, chunkStart)
  | b :: rest, offset, chunkStart, hash, acc =>
    let h := updateHash hash b
    let offset1 := offset + 1
    if isChunkBoundary c h (offset1 - chunkStart) then
      let chunkData := (buf.drop chunkStart).take (offset1 - chunkStart)
      chunkBufferGo sha c buf rest offset1 offset1 0
        (acc ++ [⟨sha chunkData, offset1 - chunkStart, chunkStart, chunkData⟩])
    else
      chunkBufferGo sha c buf rest offset1 chunkStart h acc

/-- `FastCDC.chunkBuffer`: run the byte loop over the whole buffer, then emit
any unflushed remainder as one final chunk regardless of its size. -/
def chunkBuffer (sha : List Nat → String) (c : FastCDC) (buf : List Nat) :
    List ChunkRec :=
  let r := chunkBufferGo sha c buf buf 0 0 0 []
  if r.2 < buf.length then
    let chunkData := buf.drop r.2
    r.1 ++ [⟨sha chunkData, chunkData.length, r.2, chunkData⟩]
  else r.1

/-! ## Chunk store (chunkManager.js, class ChunkManager) -/

/-- `ChunkManager.getChunk`: the local store is an oracle from hash to the
bytes of the file at the hash's sharded cache path (`none` = `ENOENT`).  A
missing file yields `null`; content whose recomputed digest differs from the
requested hash raises; matching content is returned. -/
def getChunk (sha : List Nat → String) (store : String → Option (List Nat))
    (chunkHash : String) : Except String (Option (List Nat)) :=
  match store chunkHash with
  | none => Except.ok none
  | some data =>
    if sha data ≠ chunkHash then
      Except.error ("Chunk hash mismatch for " ++ chunkHash)
    else Except.ok (some data)

/-- A chunk reference as accepted by `reconstructFile`: `offset` may be
absent (treated as `0` by the sort comparator) and `data` may carry the bytes
inline, otherwise they are fetched from the store via `getChunk`. -/
structure RChunk where
  hash : String
  size : Nat
  offset : Option Nat
  data : Option (List Nat)
deriving Repr, DecidableEq

/-- The sort key of `reconstructFile`'s comparator: `chunk.offset || 0`. -/
def sortKey (c : RChunk) : Nat :=
  c.offset.getD 0

/-- A chunker-produced chunk viewed as a `reconstructFile` input. -/
def ChunkRec.toRChunk (c : ChunkRec) : RChunk :=
  ⟨c.hash, c.size, some c.offset, some c.data⟩

/-- The write loop of `reconstructFile` over the already-sorted chunk list:
inline `data` is written as-is, otherwise the chunk is read (and digest
checked) through `getChunk`, with a missing chunk aborting reconstruction. -/
def reconstructGo (sha : List Nat → String) (store : String → Option (List Nat)) :
    List RChunk → List Nat → Except String (List Nat × Nat)
  | [], out => Except.ok (out, out.length)
  | ch :: rest, out =>
    match ch.data with
    | some d => reconstructGo sha store rest (out ++ d)
    | none =>
      match getChunk sha store ch.hash with
      | Except.error e => Except.error e
      | Except.ok none => Except.error ("Missing chunk: " ++ ch.hash)
      | Except.ok (some d) => reconstructGo sha store rest (out ++ d)

/-- `ChunkManager.reconstructFile`: stable-sort the chunk references by
ascending `offset || 0` (JS `Array.prototype.sort` is stable), then write
their bytes in that order; the result carries the written byte sequence and
the reported `bytesWritten`.  (The batched parallel reads write back in
worklist order, so they are observationally the sequential loop modelled
here.) -/
def reconstructFile (sha : List Nat → String) (store : String → Option (List Nat))
    (chunks : List RChunk) : Except String (List Nat × Nat) :=
  let sortedChunks := chunks.mergeSort fun a b => sortKey a ≤ sortKey b
  reconstructGo sha store sortedChunks []

/-! ## Pause/resume and the upload loop as a labelled transition system

`UploadManager` keeps `isPaused`, `pauseResumePromise` and `pauseResolve`;
`pause()` sets the flag and creates a fresh promise, `resume()` clears the
flag and resolves the *current* promise.  The chunk loop awaits
`waitIfPaused()` (and, after waking, re-checks the flag and awaits once
more) before processing each worklist index.  Promises are modelled by
generation numbers: `currentGen` is the generation of the live
promise/resolver pair (`none` = `null`), `resolvedGens` collects the
generations whose promise has been resolved, and a waiter stores the
generation it captured when it began awaiting.  `pause()`/`resume()` may
interleave at every `await` boundary. -/

/-- The control points of the chunk loop of `UploadManager.upload`:
`top` = loop head for index `idx` (about to call the first `waitIfPaused`),
`waitA g`/`waitB g` = suspended in the first/second `waitIfPaused` on the
promise of generation `g`, `mid` = between the two pause checks,
`run` = about to process index `idx`, `done` = loop exited. -/
inductive Pc where
  | top
  | waitA : Nat → Pc
  | mid
  | waitB : Nat → Pc
  | run
  | done
deriving Repr, DecidableEq

/-- A state of an upload session: loop control point, next worklist index,
indices processed so far (in order), and the pause bookkeeping of
`UploadManager`. -/
structure UMState where
  pc : Pc
  idx : Nat
  processed : List Nat
  isPaused : Bool
  currentGen : Option Nat
  nextGen : Nat
  resolvedGens : List Nat
deriving Repr, DecidableEq

/-- The initial state of a session over a worklist. -/
def umInit : UMState :=
  ⟨Pc.top, 0, [], false, none, 0, []⟩

/-- One step of the session over a worklist of `n` chunks: the caller's
`pause()`/`resume()` (enabled at any instant) interleaved with the loop's own
transitions, which mirror `upload`'s
`await waitIfPaused(); if (isPaused) await waitIfPaused(); process(i)`. -/
inductive UStep (n : Nat) : UMState → UMState → Prop where
  | pauseCall (s : UMState) :
      UStep n s { s with isPaused := true, currentGen := some s.nextGen,
                         nextGen := s.nextGen + 1 }
  | resumeCall (s : UMState) :
      UStep n s { s with isPaused := false, currentGen := none,
                         resolvedGens :=
                           match s.currentGen with
                           | some g => g :: s.resolvedGens
                           | none => s.resolvedGens }
  | exitLoop (s : UMState) (hpc : s.pc = Pc.top) (h : ¬ s.idx < n) :
      UStep n s { s with pc := Pc.done }
  | enterWaitA (s : UMState) (g : Nat) (hpc : s.pc = Pc.top) (h : s.idx < n)
      (hp : s.isPaused = true) (hg : s.currentGen = some g) :
      UStep n s { s with pc := Pc.waitA g }
  | skipWaitA (s : UMState) (hpc : s.pc = Pc.top) (h : s.idx < n)
      (hp : ¬ (s.isPaused = true ∧ s.currentGen.isSome)) :
      UStep n s { s with pc := Pc.mid }
  | wakeA (s : UMState) (g : Nat) (hpc : s.pc = Pc.waitA g)
      (hres : g ∈ s.resolvedGens) :
      UStep n s { s with pc := Pc.mid }
  | enterWaitB (s : UMState) (g : Nat) (hpc : s.pc = Pc.mid)
      (hp : s.isPaused = true) (hg : s.currentGen = some g) :
      UStep n s { s with pc := Pc.waitB g }
  | skipWaitB (s : UMState) (hpc : s.pc = Pc.mid)
      (hp : ¬ (s.isPaused = true ∧ s.currentGen.isSome)) :
      UStep n s { s with pc := Pc.run }
  | wakeB (s : UMState) (g : Nat) (hpc : s.pc = Pc.waitB g)
      (hres : g ∈ s.resolvedGens) :
      UStep n s { s with pc := Pc.run }
  | processChunk (s : UMState) (hpc : s.pc = Pc.run) :
      UStep n s { s with pc := Pc.top, idx := s.idx + 1,
                         processed := s.processed ++ [s.idx] }

/-- Reachability in the session transition system. -/
def UReach (n : Nat) : UMState → UMState → Prop :=
  Relation.ReflTransGen (UStep n)

/-! ## Helper lemmas -/

theorem mem_setAdd {s : List String} {x y : String} :
    x ∈ setAdd s y ↔ x ∈ s ∨ x = y := by
  unfold setAdd
  by_cases hy : y ∈ s
  · rw [if_pos (List.elem_iff.mpr hy)]
    constructor
    · exact Or.inl
    · rintro (hx | rfl)
      · exact hx
      · exact hy
  · rw [if_neg (fun hc => hy (List.elem_iff.mp hc))]
    simp [List.mem_append]

theorem mem_foldl_setAdd (xs : List String) :
    ∀ (acc : List String) (x : String),
      x ∈ xs.foldl setAdd acc ↔ x ∈ acc ∨ x ∈ xs := by
  induction xs with
  | nil => intro acc x; simp
  | cons y ys ih =>
    intro acc x
    simp only [List.foldl_cons, ih, mem_setAdd, List.mem_cons]
    tauto

theorem mem_setOfList {xs : List String} {x : String} :
    x ∈ setOfList xs ↔ x ∈ xs := by
  unfold setOfList
  simp [mem_foldl_setAdd]

theorem filesMapGet_foldl (k : Option String) :
    ∀ (fs : List FileJS) (a : Option FileJS),
      fs.foldl (fun acc f => if f.filename = k then some f else acc) a =
        match filesMapGet fs k with
        | some g => some g
        | none => a := by
  intro fs
  induction fs with
  | nil => intro a; simp [filesMapGet]
  | cons f fs ih =>
    intro a
    show fs.foldl _ (if f.filename = k then some f else a) = _
    rw [ih]
    have hcons : filesMapGet (f :: fs) k =
        match filesMapGet fs k with
        | some g => some g
        | none => if f.filename = k then some f else none := by
      show fs.foldl _ (if f.filename = k then some f else none) = _
      rw [ih]
    rw [hcons]
    cases filesMapGet fs k <;> by_cases hf : f.filename = k <;> simp [hf]

theorem filesMapGet_cons (f : FileJS) (fs : List FileJS) (k : Option String) :
    filesMapGet (f :: fs) k =
      match filesMapGet fs k with
      | some g => some g
      | none => if f.filename = k then some f else none := by
  show fs.foldl _ (if f.filename = k then some f else none) = _
  rw [filesMapGet_foldl]

theorem filesMapGet_some {fs : List FileJS} {k : Option String} {g : FileJS}
    (h : filesMapGet fs k = some g) : g ∈ fs ∧ g.filename = k := by
  induction fs with
  | nil => simp [filesMapGet] at h
  | cons f fs ih =>
    rw [filesMapGet_cons] at h
    cases hfs : filesMapGet fs k with
    | some g' =>
      rw [hfs] at h
      cases h
      have := ih hfs
      exact ⟨List.mem_cons_of_mem _ this.1, this.2⟩
    | none =>
      rw [hfs] at h
      by_cases hf : f.filename = k
      · simp only [hf, if_pos] at h
        cases h
        exact ⟨List.mem_cons_self _ _, hf⟩
      · simp [hf] at h

theorem filesMapGet_eq_none_iff {fs : List FileJS} {k : Option String} :
    filesMapGet fs k = none ↔ ∀ f ∈ fs, f.filename ≠ k := by
  induction fs with
  | nil => simp [filesMapGet]
  | cons f fs ih =>
    rw [filesMapGet_cons]
    cases hfs : filesMapGet fs k with
    | some g =>
      have hg := filesMapGet_some hfs
      simp only []
      constructor
      · intro h; cases h
      · intro h
        exact absurd hg.2 (h g (List.mem_cons_of_mem _ hg.1))
    | none =>
      have hfs' := ih.mp hfs
      by_cases hf : f.filename = k <;> simp [hf]
      · intro f' hf'
        exact hfs' f' hf'

/-! ## Theorems -/

/-- A freshly generated local manifest as produced by the packaging pipeline
(`packagePrep.generateManifest` builds chunk entries as
`{hash, size, offset}` — its comment says "URL will be set later based on R2
bucket structure"). -/
def freshLocalManifest : ManifestJS :=
  { version := some "1.0.0"
    buildType := some "production"
    manifestType := some "chunk-based"
    files := some
      [{ filename := some "a.bin"
         path := none
         url := none
         totalSize := some 4
         chunks := some
           [{ hash := some "h1", size := some 4, offset := some 0,
              url := none, data := none }] }] }

/-- C3: the spec (and the call-site comments in main.js, which pass a
`requireUrls = false` second argument) promise a lenient validation mode in
which remote URLs are optional for freshly generated local manifests.  The
`validateChunkManifest`/`parseManifest` shipped in this repository take no
such parameter and unconditionally reject a chunk without `url`, so
"lenient" validation of a fresh local manifest fails. -/
theorem validateChunkManifest_requires_url :
    validateChunkManifest freshLocalManifest =
      Except.error "Chunk missing url in file a.bin" ∧
    parseManifest freshLocalManifest =
      Except.error "Chunk missing url in file a.bin" := by
  exact ⟨rfl, rfl⟩

/-- C9: `ChunkManager.getChunk` returns `null` (here `Except.ok none`),
without throwing, when no chunk file exists for the hash; it raises when the
file exists but its recomputed digest differs from the requested hash; and it
returns the bytes when the digest matches — so callers can distinguish
"missing" from "corrupt". -/
theorem getChunk_missing_vs_corrupt (sha : List Nat → String)
    (store : String → Option (List Nat)) (h : String) :
    (store h = none → getChunk sha store h = Except.ok none) ∧
    (∀ d, store h = some d → sha d ≠ h →
      getChunk sha store h = Except.error ("Chunk hash mismatch for " ++ h)) ∧
    (∀ d, store h = some d → sha d = h →
      getChunk sha store h = Except.ok (some d)) := by
  refine ⟨fun hm => ?_, fun d hd hne => ?_, fun d hd heq => ?_⟩
  · simp [getChunk, hm]
  · simp [getChunk, hd, hne]
  · simp [getChunk, hd, heq]

/-- Witness for `getChunk_missing_vs_corrupt` at concrete stores: a store
with no entry yields `null`, a store whose bytes hash to something else
raises the mismatch error, and a matching store returns the bytes. -/
theorem getChunk_missing_vs_corrupt_witness :
    getChunk (fun d => String.mk (d.map Char.ofNat)) (fun _ => none) "aa" =
      Except.ok none ∧
    getChunk (fun d => String.mk (d.map Char.ofNat)) (fun _ => some [98]) "aa" =
      Except.error "Chunk hash mismatch for aa" ∧
    getChunk (fun d => String.mk (d.map Char.ofNat)) (fun _ => some [98]) "b" =
      Except.ok (some [98]) := by
  refine ⟨?_, ?_, ?_⟩
  · exact (getChunk_missing_vs_corrupt _ (fun _ => none) "aa").1 rfl
  · exact (getChunk_missing_vs_corrupt _ (fun _ => some [98]) "aa").2.1 [98] rfl
      (by decide)
  · exact (getChunk_missing_vs_corrupt _ (fun _ => some [98]) "b").2.2 [98] rfl
      (by decide)

theorem uploadChunksLoop_foldl (localExists remoteExists uploadOk : String → Bool)
    (version buildType : String) :
    ∀ (chunks : List ChunkWithFile) (s : UploadStats),
      chunks.foldl
        (fun s c =>
          match chunkOutcome localExists remoteExists uploadOk version buildType c with
          | ChunkOutcome.uploaded => { s with uploadedChunks := s.uploadedChunks + 1 }
          | ChunkOutcome.skipped => { s with skippedChunks := s.skippedChunks + 1 }
          | ChunkOutcome.failed => { s with failedChunks := s.failedChunks + 1 }) s =
      { totalChunks := s.totalChunks
        uploadedChunks := s.uploadedChunks + chunks.countP
          (fun c => decide (chunkOutcome localExists remoteExists uploadOk version
            buildType c = ChunkOutcome.uploaded))
        skippedChunks := s.skippedChunks + chunks.countP
          (fun c => decide (chunkOutcome localExists remoteExists uploadOk version
            buildType c = ChunkOutcome.skipped))
        failedChunks := s.failedChunks + chunks.countP
          (fun c => decide (chunkOutcome localExists remoteExists uploadOk version
            buildType c = ChunkOutcome.failed)) } := by
  intro chunks
  induction chunks with
  | nil => intro s; simp
  | cons c cs ih =>
    intro s
    rw [List.foldl_cons, ih]
    cases hc : chunkOutcome localExists remoteExists uploadOk version buildType c <;>
      simp [List.countP_cons, hc] <;> omega

theorem countP_outcome_partition (localExists remoteExists uploadOk : String → Bool)
    (version buildType : String) (chunks : List ChunkWithFile) :
    chunks.countP (fun c => decide (chunkOutcome localExists remoteExists uploadOk
        version buildType c = ChunkOutcome.uploaded)) +
      chunks.countP (fun c => decide (chunkOutcome localExists remoteExists uploadOk
        version buildType c = ChunkOutcome.skipped)) +
      chunks.countP (fun c => decide (chunkOutcome localExists remoteExists uploadOk
        version buildType c = ChunkOutcome.failed)) = chunks.length := by
  induction chunks with
  | nil => simp
  | cons c cs ih =>
    simp only [List.countP_cons, List.length_cons]
    cases hc : chunkOutcome localExists remoteExists uploadOk version buildType c <;>
      simp only [hc] <;> simp <;> omega

/-- C7: in `UploadManager.upload`, every worklist chunk lands in exactly one
of the uploaded/skipped/failed counters (a failure — including a missing
local chunk file — is caught, counted, and the loop continues with the next
chunk), the three counters partition the worklist, and the result carries
them alongside `success: true`. -/
theorem upload_partial_failure_counts (localExists remoteExists uploadOk : String → Bool)
    (version buildType : String) (chunks : List ChunkWithFile) :
    (uploadRun localExists remoteExists uploadOk version buildType chunks).success = true ∧
    (uploadRun localExists remoteExists uploadOk version buildType chunks).stats.totalChunks =
      chunks.length ∧
    (uploadRun localExists remoteExists uploadOk version buildType chunks).stats.uploadedChunks =
      chunks.countP (fun c => decide (chunkOutcome localExists remoteExists uploadOk
        version buildType c = ChunkOutcome.uploaded)) ∧
    (uploadRun localExists remoteExists uploadOk version buildType chunks).stats.skippedChunks =
      chunks.countP (fun c => decide (chunkOutcome localExists remoteExists uploadOk
        version buildType c = ChunkOutcome.skipped)) ∧
    (uploadRun localExists remoteExists uploadOk version buildType chunks).stats.failedChunks =
      chunks.countP (fun c => decide (chunkOutcome localExists remoteExists uploadOk
        version buildType c = ChunkOutcome.failed)) ∧
    (uploadRun localExists remoteExists uploadOk version buildType chunks).stats.uploadedChunks +
      (uploadRun localExists remoteExists uploadOk version buildType chunks).stats.skippedChunks +
      (uploadRun localExists remoteExists uploadOk version buildType chunks).stats.failedChunks =
      chunks.length ∧
    (∀ c ∈ chunks, localExists (c.hash.getD "") = false →
      chunkOutcome localExists remoteExists uploadOk version buildType c =
        ChunkOutcome.failed) := by
  have hfold := uploadChunksLoop_foldl localExists remoteExists uploadOk version
    buildType chunks ⟨chunks.length, 0, 0, 0⟩
  have hloop : uploadChunksLoop localExists remoteExists uploadOk version buildType chunks =
      { totalChunks := chunks.length
        uploadedChunks := chunks.countP (fun c => decide (chunkOutcome localExists
          remoteExists uploadOk version buildType c = ChunkOutcome.uploaded))
        skippedChunks := chunks.countP (fun c => decide (chunkOutcome localExists
          remoteExists uploadOk version buildType c = ChunkOutcome.skipped))
        failedChunks := chunks.countP (fun c => decide (chunkOutcome localExists
          remoteExists uploadOk version buildType c = ChunkOutcome.failed)) } := by
    unfold uploadChunksLoop
    rw [hfold]
    simp
  refine ⟨rfl, ?_, ?_, ?_, ?_, ?_, ?_⟩
  · show (uploadChunksLoop _ _ _ _ _ _).totalChunks = _
    rw [hloop]
  · show (uploadChunksLoop _ _ _ _ _ _).uploadedChunks = _
    rw [hloop]
  · show (uploadChunksLoop _ _ _ _ _ _).skippedChunks = _
    rw [hloop]
  · show (uploadChunksLoop _ _ _ _ _ _).failedChunks = _
    rw [hloop]
  · show (uploadChunksLoop _ _ _ _ _ _).uploadedChunks +
      (uploadChunksLoop _ _ _ _ _ _).skippedChunks +
      (uploadChunksLoop _ _ _ _ _ _).failedChunks = _
    rw [hloop]
    exact countP_outcome_partition localExists remoteExists uploadOk version buildType chunks
  · intro c _ hl
    unfold chunkOutcome
    simp [hl]

/-- Witness for `upload_partial_failure_counts`: a three-chunk worklist in
which the first chunk's local file is missing, the second already exists
remotely and the third uploads; the counters come out 1/1/1 and the session
still returns success. -/
theorem upload_partial_failure_counts_witness :
    chunkOutcome (fun h => h ≠ "h1") (fun k => k = chunkKey "production" "1.0" "h2")
      (fun _ => true) "1.0" "production" ⟨some "h1", some 1, some 0, none, none, some "a"⟩ =
      ChunkOutcome.failed ∧
    (uploadRun (fun h => h ≠ "h1") (fun k => k = chunkKey "production" "1.0" "h2")
      (fun _ => true) "1.0" "production"
      [⟨some "h1", some 1, some 0, none, none, some "a"⟩,
       ⟨some "h2", some 1, some 0, none, none, some "b"⟩,
       ⟨some "h3", some 1, some 0, none, none, some "c"⟩]).stats.failedChunks = 1 := by
  constructor
  · exact (upload_partial_failure_counts (fun h => h ≠ "h1")
      (fun k => k = chunkKey "production" "1.0" "h2") (fun _ => true) "1.0" "production"
      [⟨some "h1", some 1, some 0, none, none, some "a"⟩,
       ⟨some "h2", some 1, some 0, none, none, some "b"⟩,
       ⟨some "h3", some 1, some 0, none, none, some "c"⟩]).2.2.2.2.2.2
      ⟨some "h1", some 1, some 0, none, none, some "a"⟩ (List.mem_cons_self _ _)
      (by decide)
  · rw [(upload_partial_failure_counts (fun h => h ≠ "h1")
      (fun k => k = chunkKey "production" "1.0" "h2") (fun _ => true) "1.0" "production"
      [⟨some "h1", some 1, some 0, none, none, some "a"⟩,
       ⟨some "h2", some 1, some 0, none, none, some "b"⟩,
       ⟨some "h3", some 1, some 0, none, none, some "c"⟩]).2.2.2.2.1]
    decide

theorem verify_foldl_missing (store : String → Bool) (buildType version : String) :
    ∀ (cs : List ChunkWithFile) (r : VerifyResult),
      (cs.foldl (verifyStep store buildType version) r).missingChunks =
        r.missingChunks ++
          (cs.filter fun c =>
            ¬ store (chunkKey buildType version (c.hash.getD ""))).map
            (fun c => ⟨c.hash.getD "", c.size.getD 0,
              chunkKey buildType version (c.hash.getD "")⟩) ∧
      (cs.foldl (verifyStep store buildType version) r).totalChunks = r.totalChunks := by
  intro cs
  induction cs with
  | nil => intro r; simp
  | cons c cs ih =>
    intro r
    rw [List.foldl_cons]
    by_cases hs : store (chunkKey buildType version (c.hash.getD ""))
    · have hstep : verifyStep store buildType version r c =
          { r with
            existingChunks := r.existingChunks ++
              [⟨c.hash.getD "", c.size.getD 0, chunkKey buildType version (c.hash.getD "")⟩],
            totalSize := r.totalSize + c.size.getD 0,
            existingSize := r.existingSize + c.size.getD 0 } := by
        simp [verifyStep, hs]
      rw [hstep]
      have hih := ih { r with
        existingChunks := r.existingChunks ++
          [⟨c.hash.getD "", c.size.getD 0, chunkKey buildType version (c.hash.getD "")⟩],
        totalSize := r.totalSize + c.size.getD 0,
        existingSize := r.existingSize + c.size.getD 0 }
      simpa [List.filter_cons, hs] using hih
    · have hstep : verifyStep store buildType version r c =
          { r with
            missingChunks := r.missingChunks ++
              [⟨c.hash.getD "", c.size.getD 0, chunkKey buildType version (c.hash.getD "")⟩],
            totalSize := r.totalSize + c.size.getD 0,
            missingSize := r.missingSize + c.size.getD 0 } := by
        simp [verifyStep, hs]
      rw [hstep]
      have hih := ih { r with
        missingChunks := r.missingChunks ++
          [⟨c.hash.getD "", c.size.getD 0, chunkKey buildType version (c.hash.getD "")⟩],
        totalSize := r.totalSize + c.size.getD 0,
        missingSize := r.missingSize + c.size.getD 0 }
      simpa [List.filter_cons, hs] using hih

theorem verifyManifest_missing (store : String → Bool) (m : ManifestJS)
    (buildType : String) :
    (verifyManifest store m buildType).missingChunks =
      ((getAllChunks m).filter fun c =>
        ¬ store (chunkKey buildType (jsStr m.version) (c.hash.getD ""))).map
        (fun c => ⟨c.hash.getD "", c.size.getD 0,
          chunkKey buildType (jsStr m.version) (c.hash.getD "")⟩) := by
  unfold verifyManifest
  have := verify_foldl_missing store buildType (jsStr m.version) (getAllChunks m)
    ⟨(getAllChunks m).length, [], [], 0, 0, 0, false⟩
  simpa using this.1

theorem verifyManifest_totalChunks (store : String → Bool) (m : ManifestJS)
    (buildType : String) :
    (verifyManifest store m buildType).totalChunks = (getAllChunks m).length := by
  unfold verifyManifest
  have := verify_foldl_missing store buildType (jsStr m.version) (getAllChunks m)
    ⟨(getAllChunks m).length, [], [], 0, 0, 0, false⟩
  simpa using this.2

theorem verifyManifest_allExist (store : String → Bool) (m : ManifestJS)
    (buildType : String) :
    (verifyManifest store m buildType).allChunksExist = true ↔
      ∀ c ∈ getAllChunks m,
        store (chunkKey buildType (jsStr m.version) (c.hash.getD "")) = true := by
  have hmiss := verifyManifest_missing store m buildType
  have h2 : (verifyManifest store m buildType).allChunksExist =
      decide ((verifyManifest store m buildType).missingChunks.length = 0) := rfl
  constructor
  · intro hall c hc
    by_contra hfalse
    have hne : ¬ store (chunkKey buildType (jsStr m.version) (c.hash.getD "")) := by
      simpa using hfalse
    have hcmem : c ∈ (getAllChunks m).filter fun c =>
        ¬ store (chunkKey buildType (jsStr m.version) (c.hash.getD "")) := by
      rw [List.mem_filter]
      exact ⟨hc, by simpa using hne⟩
    have hlen : (verifyManifest store m buildType).missingChunks ≠ [] := by
      rw [hmiss]
      intro hnil
      rw [List.map_eq_nil_iff] at hnil
      rw [hnil] at hcmem
      cases hcmem
    rw [hall] at h2
    have h0 : (verifyManifest store m buildType).missingChunks.length = 0 :=
      of_decide_eq_true h2.symm
    exact hlen (List.eq_nil_of_length_eq_zero h0)
  · intro hstore
    have hfil : ((getAllChunks m).filter fun c =>
        ¬ store (chunkKey buildType (jsStr m.version) (c.hash.getD ""))) = [] := by
      rw [List.filter_eq_nil_iff]
      intro c hc
      simp [hstore c hc]
    have h0 : (verifyManifest store m buildType).missingChunks = [] := by
      rw [hmiss, hfil]; rfl
    rw [h2, h0]
    rfl

theorem versionKey_ne_latestKey (buildType version : String) :
    versionManifestKey buildType version ≠ latestManifestKey buildType := by
  intro h
  unfold versionManifestKey latestManifestKey at h
  have hd := congrArg String.data h
  rw [String.data_append, String.data_append, String.data_append, String.data_append,
    List.append_assoc, List.append_assoc] at hd
  have hd2 := List.append_cancel_left hd
  have hkey : ∀ l : List Char, ("/" : String).data ++ l = '/' :: l := fun _ => rfl
  rw [hkey] at hd2
  have hlat : ("/roleplayai_manifest.json" : String).data =
      '/' :: ("roleplayai_manifest.json" : String).data := rfl
  rw [hlat] at hd2
  have hd3 : version.data ++ ("/manifest.json" : String).data =
      ("roleplayai_manifest.json" : String).data := by
    injection hd2
  have hmem : '/' ∈ version.data ++ ("/manifest.json" : String).data :=
    List.mem_append.mpr (Or.inr (by decide))
  rw [hd3] at hmem
  exact absurd hmem (by decide)

/-- C2: `promoteVersion` first verifies every chunk of the manifest against
the remote store; if any chunk is missing it fails with an error message
carrying the missing-chunk count and performs no write at all (in particular
none to the latest-for-buildType pointer `{buildType}/roleplayai_manifest.json`);
if no chunk is missing it writes exactly the latest-for-buildType pointer
object and never the version-pinned manifest
`{buildType}/{version}/manifest.json`. -/
theorem promoteVersion_guard (store : String → Bool) (version buildType : String)
    (m : ManifestJS) :
    ((∃ c ∈ getAllChunks { m with version := some version },
        store (chunkKey buildType version (c.hash.getD "")) = false) →
      (promoteVersion store version buildType m).1 = [] ∧
      ∃ pre post n, 0 < n ∧
        (promoteVersion store version buildType m).2 =
          Except.error (pre ++ toString n ++ post) ∧
        n = (verifyManifest store { m with version := some version }
          buildType).missingChunks.length) ∧
    ((∀ c ∈ getAllChunks { m with version := some version },
        store (chunkKey buildType version (c.hash.getD "")) = true) →
      (promoteVersion store version buildType m).1.map Prod.fst =
        [latestManifestKey buildType] ∧
      versionManifestKey buildType version ∉
        (promoteVersion store version buildType m).1.map Prod.fst) := by
  have hver : jsStr (ManifestJS.version { m with version := some version }) = version := rfl
  constructor
  · rintro ⟨c, hc, hmissing⟩
    have hnex : ¬ ((verifyManifest store { m with version := some version }
        buildType).allChunksExist = true) := by
      rw [verifyManifest_allExist]
      intro hall
      have := hall c hc
      rw [hver] at this
      rw [hmissing] at this
      cases this
    have hrun : promoteVersion store version buildType m =
        ([], Except.error (promoteErrorMsg version
          (verifyManifest store { m with version := some version }
            buildType).missingChunks.length)) := by
      unfold promoteVersion
      rw [if_pos (by simpa using hnex)]
    refine ⟨by rw [hrun], "Cannot promote version " ++ version ++ ": ",
      " chunks are missing in R2. Please ensure all chunks are uploaded before promoting.",
      (verifyManifest store { m with version := some version }
        buildType).missingChunks.length, ?_, ?_, rfl⟩
    · by_contra h0
      push_neg at h0
      have h00 : (verifyManifest store { m with version := some version }
          buildType).missingChunks.length = 0 := by omega
      have hnil := List.eq_nil_of_length_eq_zero h00
      rw [verifyManifest_missing] at hnil
      rw [List.map_eq_nil_iff] at hnil
      have hcmem : c ∈ (getAllChunks { m with version := some version }).filter fun c =>
          ¬ store (chunkKey buildType
            (jsStr (ManifestJS.version { m with version := some version }))
            (c.hash.getD "")) := by
        rw [List.mem_filter]
        refine ⟨hc, ?_⟩
        rw [hver, hmissing]
        simp
      rw [hnil] at hcmem
      cases hcmem
    · rw [hrun]
      simp [promoteErrorMsg, String.append_assoc]
  · intro hall
    have hex : (verifyManifest store { m with version := some version }
        buildType).allChunksExist = true := by
      rw [verifyManifest_allExist]
      intro c hc
      rw [hver]
      exact hall c hc
    have hrun : (promoteVersion store version buildType m).1 =
        [(latestManifestKey buildType,
          rewriteChunkUrls { m with version := some version, buildType := some buildType }
            version buildType)] := by
      unfold promoteVersion
      rw [if_neg (by simp [hex])]
    rw [hrun]
    refine ⟨rfl, ?_⟩
    simp only [List.map_cons, List.map_nil, List.mem_singleton]
    exact versionKey_ne_latestKey buildType version

/-- A small published chunk-based manifest used to exercise promotion. -/
def promoteDemoManifest : ManifestJS :=
  { version := some "0.9"
    buildType := some "production"
    manifestType := some "chunk-based"
    files := some
      [{ filename := some "game.bin"
         path := none
         url := none
         totalSize := some 2
         chunks := some
           [{ hash := some "abcd", size := some 2, offset := some 0,
              url := some "u", data := none }] }] }

/-- Witness for `promoteVersion_guard`: with an empty remote store promotion
writes nothing, and with a complete remote store it writes exactly the
latest-for-buildType pointer. -/
theorem promoteVersion_guard_witness :
    (promoteVersion (fun _ => false) "2.0" "production" promoteDemoManifest).1 = [] ∧
    (promoteVersion (fun _ => true) "2.0" "production" promoteDemoManifest).1.map
      Prod.fst = [latestManifestKey "production"] := by
  constructor
  · exact ((promoteVersion_guard (fun _ => false) "2.0" "production"
      promoteDemoManifest).1
      ⟨⟨some "abcd", some 2, some 0, some "u", none, some "game.bin"⟩,
        by decide, rfl⟩).1
  · exact ((promoteVersion_guard (fun _ => true) "2.0" "production"
      promoteDemoManifest).2 (fun c _ => rfl)).1

/-- A valid chunk-based manifest on the production track. -/
def prodManifest : ManifestJS :=
  { version := some "1.0"
    buildType := some "production"
    manifestType := some "chunk-based"
    files := some
      [{ filename := some "a.bin"
         path := none
         url := none
         totalSize := some 1
         chunks := some
           [{ hash := some "h1", size := some 1, offset := some 0,
              url := some "u1", data := none }] }] }

/-- The same content published on the staging track. -/
def stagManifest : ManifestJS :=
  { prodManifest with version := some "1.1", buildType := some "staging" }

/-- C8 counterexample: `detectDelta` itself never inspects `buildType` —
diffing a production manifest against a staging one succeeds and returns a
changeset instead of raising. -/
theorem detectDelta_ignores_buildType :
    prodManifest.buildType = some "production" ∧
    stagManifest.buildType = some "staging" ∧
    ∃ d, detectDelta prodManifest stagManifest = Except.ok d := by
  exact ⟨rfl, rfl, _, rfl⟩

/-- C8 (amended): the build-type guard lives in `UploadManager.upload`, not
in `detectDelta`: in delta mode the upload raises
"Cannot compare manifests: ..." — before any changeset is computed — whenever
the old manifest carries a truthy `buildType` different from the effective
one (the new manifest's truthy `buildType`, or else the provided one). -/
theorem uploadDelta_buildType_guard (oldM newM : ManifestJS) (provided a b : String)
    (hold : oldM.buildType = some a) (ha : a ≠ "")
    (hnew : newM.buildType = some b) (hb : b ≠ "") (hab : a ≠ b) :
    uploadDeltaPrep oldM newM provided =
      Except.error ("Cannot compare manifests: old manifest is " ++ a ++
        " but new manifest is " ++ b ++
        ". Delta comparison only works within the same build type.") := by
  unfold uploadDeltaPrep
  have hbt : jsOrStr newM.buildType provided = b := by
    rw [hnew]
    simp [jsOrStr, hb]
  rw [hbt]
  rw [if_pos ⟨by rw [hold]; simp [strTruthy, ha], by rw [hold]; simp [hab]⟩]
  rw [hold]
  rfl

/-- Witness for `uploadDelta_buildType_guard` at the two concrete track
manifests. -/
theorem uploadDelta_buildType_guard_witness :
    uploadDeltaPrep prodManifest stagManifest "production" =
      Except.error ("Cannot compare manifests: old manifest is production" ++
        " but new manifest is staging" ++
        ". Delta comparison only works within the same build type.") := by
  have h := uploadDelta_buildType_guard prodManifest stagManifest "production"
    "production" "staging" rfl (by decide) rfl (by decide) (by decide)
  simpa using h

theorem jsOrNat_pos (o : Option Nat) (d : Nat) (hd : 1 ≤ d) : 1 ≤ jsOrNat o d := by
  cases o with
  | none => exact hd
  | some v =>
    by_cases hv : v = 0 <;> simp [jsOrNat, hv] <;> omega

theorem isChunkBoundary_min {c : FastCDC} {hash pos : Nat}
    (h : isChunkBoundary c hash pos = true) : c.minSize ≤ pos := by
  unfold isChunkBoundary at h
  by_cases hlt : pos < c.minSize
  · rw [if_pos hlt] at h
    cases h
  · omega

theorem isChunkBoundary_false_lt {c : FastCDC} {hash pos : Nat}
    (hminmax : c.minSize ≤ c.maxSize)
    (h : isChunkBoundary c hash pos = false) : pos < c.maxSize := by
  unfold isChunkBoundary at h
  by_cases hlt : pos < c.minSize
  · omega
  · rw [if_neg hlt] at h
    by_cases hge : pos ≥ c.maxSize
    · rw [if_pos hge] at h
      cases h
    · omega

theorem chunkBufferGo_bounds (sha : List Nat → String) (c : FastCDC) (buf : List Nat)
    (hminmax : c.minSize ≤ c.maxSize) (hmax : 1 ≤ c.maxSize) :
    ∀ (rest : List Nat) (offset chunkStart hash : Nat) (acc : List ChunkRec),
      chunkStart ≤ offset →
      offset - chunkStart < c.maxSize →
      (∀ ch ∈ acc, c.minSize ≤ ch.size ∧ ch.size ≤ c.maxSize) →
      ∀ ch ∈ (chunkBufferGo sha c buf rest offset chunkStart hash acc).1,
        c.minSize ≤ ch.size ∧ ch.size ≤ c.maxSize := by
  intro rest
  induction rest with
  | nil =>
    intro offset chunkStart hash acc _ _ hacc ch hch
    exact hacc ch hch
  | cons b bs ih =>
    intro offset chunkStart hash acc hle hlen hacc ch hch
    rw [chunkBufferGo] at hch
    by_cases hb : isChunkBoundary c (updateHash hash b) (offset + 1 - chunkStart) = true
    · rw [if_pos hb] at hch
      refine ih (offset + 1) (offset + 1) 0 _ (le_refl _) (by omega) ?_ ch hch
      intro ch' hch'
      rcases List.mem_append.mp hch' with hmem | hmem
      · exact hacc ch' hmem
      · rcases List.mem_singleton.mp hmem with rfl
        refine ⟨isChunkBoundary_min hb, ?_⟩
        show offset + 1 - chunkStart ≤ c.maxSize
        omega
    · rw [if_neg hb] at hch
      have hb' : isChunkBoundary c (updateHash hash b) (offset + 1 - chunkStart) = false := by
        simpa using hb
      have hlt := isChunkBoundary_false_lt hminmax hb'
      exact ih (offset + 1) chunkStart (updateHash hash b) acc (by omega) (by omega)
        hacc ch hch

/-- C5: for every chunker configuration (as built by the `FastCDC`
constructor) with `minSize ≤ avgSize ≤ maxSize` and every input, every chunk
produced by `chunkBuffer` except the final chunk of the stream has
`minSize ≤ size ≤ maxSize`. -/
theorem chunk_size_bounds (sha : List Nat → String) (minOpt avgOpt maxOpt : Option Nat)
    (buf : List Nat)
    (hma : (FastCDC.make minOpt avgOpt maxOpt).minSize ≤
      (FastCDC.make minOpt avgOpt maxOpt).avgSize)
    (ham : (FastCDC.make minOpt avgOpt maxOpt).avgSize ≤
      (FastCDC.make minOpt avgOpt maxOpt).maxSize) :
    ∀ ch ∈ (chunkBuffer sha (FastCDC.make minOpt avgOpt maxOpt) buf).dropLast,
      (FastCDC.make minOpt avgOpt maxOpt).minSize ≤ ch.size ∧
        ch.size ≤ (FastCDC.make minOpt avgOpt maxOpt).maxSize := by
  intro ch hch
  have hminmax : (FastCDC.make minOpt avgOpt maxOpt).minSize ≤
      (FastCDC.make minOpt avgOpt maxOpt).maxSize := le_trans hma ham
  have hmax : 1 ≤ (FastCDC.make minOpt avgOpt maxOpt).maxSize :=
    jsOrNat_pos maxOpt (20 * 1024 * 1024) (by omega)
  have hloop := chunkBufferGo_bounds sha (FastCDC.make minOpt avgOpt maxOpt) buf
    hminmax hmax buf 0 0 0 [] (le_refl 0) (by omega) (by intro ch' hch'; cases hch')
  unfold chunkBuffer at hch
  by_cases htr : (chunkBufferGo sha (FastCDC.make minOpt avgOpt maxOpt) buf buf 0 0 0 []).2 <
      buf.length
  · rw [if_pos htr] at hch
    rw [List.dropLast_concat] at hch
    exact hloop ch hch
  · rw [if_neg htr] at hch
    exact hloop ch ((List.dropLast_sublist _).subset hch)

/-- Witness for `chunk_size_bounds` at min 1 / avg 1 / max 1 over a 3-byte
input: the first produced chunk is not final and respects the bounds. -/
theorem chunk_size_bounds_witness :
    (FastCDC.make (some 1) (some 1) (some 1)).minSize ≤
      (FastCDC.make (some 1) (some 1) (some 1)).avgSize ∧
    ⟨"", 1, 0, [0]⟩ ∈
      (chunkBuffer (fun _ => "") (FastCDC.make (some 1) (some 1) (some 1))
        [0, 0, 0]).dropLast ∧
    ((FastCDC.make (some 1) (some 1) (some 1)).minSize ≤ (1 : Nat) ∧
      (1 : Nat) ≤ (FastCDC.make (some 1) (some 1) (some 1)).maxSize) := by
  refine ⟨by decide, by decide, ?_⟩
  exact chunk_size_bounds (fun _ => "") (some 1) (some 1) (some 1) [0, 0, 0]
    (by decide) (by decide) ⟨"", 1, 0, [0]⟩ (by decide)

/-- `Spans buf l a b`: the chunk list `l` tiles the byte range `[a, b)` of
`buf` contiguously — each chunk starts where the previous one ended, is
non-empty, stays inside `buf`, and carries exactly its range's bytes. -/
def Spans (buf : List Nat) : List ChunkRec → Nat → Nat → Prop
  | [], a, b => a = b
  | ch :: rest, a, b =>
      ch.offset = a ∧ 1 ≤ ch.size ∧ a + ch.size ≤ buf.length ∧
      ch.data = (buf.drop a).take ch.size ∧ Spans buf rest (a + ch.size) b

theorem Spans.le {buf : List Nat} :
    ∀ {l : List ChunkRec} {a b : Nat}, Spans buf l a b → a ≤ b := by
  intro l
  induction l with
  | nil => intro a b h; exact le_of_eq h
  | cons ch rest ih =>
    intro a b h
    have := ih h.2.2.2.2
    omega

theorem Spans.append {buf : List Nat} :
    ∀ {l₁ l₂ : List ChunkRec} {a b c : Nat},
      Spans buf l₁ a b → Spans buf l₂ b c → Spans buf (l₁ ++ l₂) a c := by
  intro l₁
  induction l₁ with
  | nil =>
    intro l₂ a b c h1 h2
    cases h1
    exact h2
  | cons ch rest ih =>
    intro l₂ a b c h1 h2
    exact ⟨h1.1, h1.2.1, h1.2.2.1, h1.2.2.2.1, ih h1.2.2.2.2 h2⟩

theorem Spans.flatten_data {buf : List Nat} :
    ∀ {l : List ChunkRec} {a b : Nat}, Spans buf l a b →
      (l.map ChunkRec.data).flatten = (buf.drop a).take (b - a) := by
  intro l
  induction l with
  | nil =>
    intro a b h
    cases h
    simp
  | cons ch rest ih =>
    intro a b h
    obtain ⟨hoff, hsz, hin, hdata, hrest⟩ := h
    have hab : a + ch.size ≤ b := Spans.le hrest
    have htail := ih hrest
    have hdrop : buf.drop (a + ch.size) = (buf.drop a).drop ch.size := by
      rw [List.drop_drop]
    rw [List.map_cons, List.flatten_cons, htail, hdata, hdrop]
    have hsplit := List.take_add (buf.drop a) ch.size (b - (a + ch.size))
    have harith : ch.size + (b - (a + ch.size)) = b - a := by omega
    rw [harith] at hsplit
    exact hsplit.symm

theorem Spans.sum_sizes {buf : List Nat} :
    ∀ {l : List ChunkRec} {a b : Nat}, Spans buf l a b →
      (l.map ChunkRec.size).sum = b - a := by
  intro l
  induction l with
  | nil =>
    intro a b h
    cases h
    simp
  | cons ch rest ih =>
    intro a b h
    obtain ⟨_, _, _, _, hrest⟩ := h
    have hab : a + ch.size ≤ b := Spans.le hrest
    have := ih hrest
    simp only [List.map_cons, List.sum_cons, this]
    omega

theorem Spans.chain {buf : List Nat} :
    ∀ {l : List ChunkRec} {a b : Nat}, Spans buf l a b →
      List.Chain' (fun x y => y.offset = x.offset + x.size) l := by
  intro l
  induction l with
  | nil => intro a b _; exact List.chain'_nil
  | cons ch rest ih =>
    intro a b h
    obtain ⟨hoff, _, _, _, hrest⟩ := h
    rw [List.chain'_cons']
    refine ⟨?_, ih hrest⟩
    intro y hy
    cases rest with
    | nil => cases hy
    | cons ch2 rest2 =>
      cases hy
      rw [hrest.1, hoff]

theorem Spans.offset_lb {buf : List Nat} :
    ∀ {l : List ChunkRec} {a b : Nat}, Spans buf l a b →
      ∀ y ∈ l, a ≤ y.offset := by
  intro l
  induction l with
  | nil => intro a b _ y hy; cases hy
  | cons ch rest ih =>
    intro a b h y hy
    obtain ⟨hoff, hsz, _, _, hrest⟩ := h
    rcases List.mem_cons.mp hy with rfl | hy'
    · omega
    · have := ih hrest y hy'
      omega

theorem Spans.strict_offsets {buf : List Nat} :
    ∀ {l : List ChunkRec} {a b : Nat}, Spans buf l a b →
      l.Pairwise fun x y => x.offset < y.offset := by
  intro l
  induction l with
  | nil => intro a b _; exact List.Pairwise.nil
  | cons ch rest ih =>
    intro a b h
    obtain ⟨hoff, hsz, _, _, hrest⟩ := h
    refine List.Pairwise.cons ?_ (ih hrest)
    intro y hy
    have := Spans.offset_lb hrest y hy
    omega

theorem chunkBufferGo_spans (sha : List Nat → String) (c : FastCDC) (buf : List Nat) :
    ∀ (rest : List Nat) (offset chunkStart hash : Nat) (acc : List ChunkRec),
      rest = buf.drop offset →
      offset ≤ buf.length →
      chunkStart ≤ offset →
      Spans buf acc 0 chunkStart →
      Spans buf (chunkBufferGo sha c buf rest offset chunkStart hash acc).1 0
          (chunkBufferGo sha c buf rest offset chunkStart hash acc).2 ∧
        (chunkBufferGo sha c buf rest offset chunkStart hash acc).2 ≤ buf.length := by
  intro rest
  induction rest with
  | nil =>
    intro offset chunkStart hash acc _ hoff hcs hacc
    exact ⟨hacc, le_trans hcs hoff⟩
  | cons b bs ih =>
    intro offset chunkStart hash acc hrest hoff hcs hacc
    have hofflt : offset < buf.length := by
      by_contra hge
      have : buf.drop offset = [] := List.drop_eq_nil_of_le (by omega)
      rw [this] at hrest
      cases hrest
    have hbs : bs = buf.drop (offset + 1) := by
      have h1 := List.drop_drop 1 offset buf
      rw [← hrest] at h1
      simpa using h1
    rw [chunkBufferGo]
    by_cases hb : isChunkBoundary c (updateHash hash b) (offset + 1 - chunkStart) = true
    · rw [if_pos hb]
      refine ih (offset + 1) (offset + 1) 0 _ hbs (by omega) (le_refl _) ?_
      refine Spans.append hacc ⟨rfl, ?_, ?_, rfl, ?_⟩
      · show (1 : Nat) ≤ offset + 1 - chunkStart
        omega
      · show chunkStart + (offset + 1 - chunkStart) ≤ buf.length
        omega
      · show chunkStart + (offset + 1 - chunkStart) = offset + 1
        omega
    · rw [if_neg hb]
      exact ih (offset + 1) chunkStart (updateHash hash b) acc hbs (by omega)
        (by omega) hacc

theorem chunkBuffer_spans (sha : List Nat → String) (c : FastCDC) (buf : List Nat) :
    Spans buf (chunkBuffer sha c buf) 0 buf.length := by
  obtain ⟨h1, h2⟩ := chunkBufferGo_spans sha c buf buf 0 0 0 [] rfl (by omega)
    (le_refl 0) rfl
  unfold chunkBuffer
  by_cases htr : (chunkBufferGo sha c buf buf 0 0 0 []).2 < buf.length
  · rw [if_pos htr]
    refine Spans.append h1 ⟨rfl, ?_, ?_, ?_, ?_⟩
    · show (1 : Nat) ≤ (buf.drop (chunkBufferGo sha c buf buf 0 0 0 []).2).length
      rw [List.length_drop]
      omega
    · show (chunkBufferGo sha c buf buf 0 0 0 []).2 +
        (buf.drop (chunkBufferGo sha c buf buf 0 0 0 []).2).length ≤ buf.length
      rw [List.length_drop]
      omega
    · show buf.drop (chunkBufferGo sha c buf buf 0 0 0 []).2 =
        (buf.drop (chunkBufferGo sha c buf buf 0 0 0 []).2).take
          (buf.drop (chunkBufferGo sha c buf buf 0 0 0 []).2).length
      exact (List.take_length _).symm
    · show (chunkBufferGo sha c buf buf 0 0 0 []).2 +
        (buf.drop (chunkBufferGo sha c buf buf 0 0 0 []).2).length = buf.length
      rw [List.length_drop]
      omega
  · rw [if_neg htr]
    have heq : (chunkBufferGo sha c buf buf 0 0 0 []).2 = buf.length := by omega
    rw [← heq]
    exact h1

theorem sorted_mergeSort_key {α : Type _} (key : α → Nat) (l : List α) :
    (l.mergeSort fun a b => decide (key a ≤ key b)).Pairwise
      fun a b => key a ≤ key b := by
  have h := @List.sorted_mergeSort _ (fun a b => decide (key a ≤ key b))
    (fun a b c h1 h2 => by
      simp only [decide_eq_true_eq] at h1 h2 ⊢
      omega)
    (fun a b => by simpa using Nat.le_total (key a) (key b)) l
  exact h.imp fun h' => by simpa using h'

theorem mergeSort_key_sorted_strict {α : Type _} (key : α → Nat) {l : List α}
    (hnodup : (l.map key).Nodup) :
    (l.mergeSort fun a b => decide (key a ≤ key b)).Pairwise
      fun a b => key a < key b := by
  have hperm := List.mergeSort_perm l fun a b => decide (key a ≤ key b)
  have hl : l.Pairwise fun a b => key a ≠ key b := by
    rw [List.Nodup, List.pairwise_map] at hnodup
    exact hnodup
  have hne : (l.mergeSort fun a b => decide (key a ≤ key b)).Pairwise
      fun a b => key a ≠ key b :=
    (hperm.pairwise_iff fun h => h.symm).mpr hl
  exact ((sorted_mergeSort_key key l).and hne).imp
    fun h => lt_of_le_of_ne h.1 h.2

theorem mergeSort_key_fixpoint {α : Type _} (key : α → Nat) (l : List α)
    (hs : l.Pairwise fun x y => key x < key y) :
    (l.mergeSort fun a b => decide (key a ≤ key b)) = l := by
  haveI : IsAntisymm α (fun a b => key a < key b) :=
    ⟨fun a b h1 h2 => absurd (lt_trans h1 h2) (lt_irrefl _)⟩
  have hnodup : (l.map key).Nodup := by
    rw [List.Nodup, List.pairwise_map]
    exact hs.imp fun h => ne_of_lt h
  exact List.eq_of_perm_of_sorted (List.mergeSort_perm l _)
    (mergeSort_key_sorted_strict key hnodup) hs

theorem mergeSort_key_eq_of_perm {α : Type _} (key : α → Nat) {l₁ l₂ : List α}
    (hperm : l₁.Perm l₂) (hnodup : (l₁.map key).Nodup) :
    (l₁.mergeSort fun a b => decide (key a ≤ key b)) =
      (l₂.mergeSort fun a b => decide (key a ≤ key b)) := by
  haveI : IsAntisymm α (fun a b => key a < key b) :=
    ⟨fun a b h1 h2 => absurd (lt_trans h1 h2) (lt_irrefl _)⟩
  have h2nodup : (l₂.map key).Nodup := (hperm.map key).nodup_iff.mp hnodup
  exact List.eq_of_perm_of_sorted
    ((List.mergeSort_perm l₁ _).trans (hperm.trans (List.mergeSort_perm l₂ _).symm))
    (mergeSort_key_sorted_strict key hnodup)
    (mergeSort_key_sorted_strict key h2nodup)

theorem reconstructGo_toRChunk (sha : List Nat → String)
    (store : String → Option (List Nat)) :
    ∀ (cs : List ChunkRec) (out : List Nat),
      reconstructGo sha store (cs.map ChunkRec.toRChunk) out =
        Except.ok (out ++ (cs.map ChunkRec.data).flatten,
          (out ++ (cs.map ChunkRec.data).flatten).length) := by
  intro cs
  induction cs with
  | nil => intro out; simp [reconstructGo]
  | cons ch rest ih =>
    intro out
    rw [List.map_cons, reconstructGo]
    show reconstructGo sha store (rest.map ChunkRec.toRChunk) (out ++ ch.data) = _
    rw [ih (out ++ ch.data)]
    simp [List.append_assoc]

/-- C6: for every input byte sequence, the chunker's output is a contiguous
partition of the input — the first chunk starts at offset 0, each next
chunk's offset is the previous offset plus its size, concatenating the chunk
payloads in that (ascending-offset) order reproduces the input exactly, and
the sizes sum to the input length — and `reconstructFile` on those chunks
writes back exactly the input with `bytesWritten` equal to its length. -/
theorem chunk_reconstruct_roundtrip (sha : List Nat → String)
    (store : String → Option (List Nat)) (c : FastCDC) (buf : List Nat) :
    ((chunkBuffer sha c buf).map ChunkRec.data).flatten = buf ∧
    (∀ ch, (chunkBuffer sha c buf).head? = some ch → ch.offset = 0) ∧
    List.Chain' (fun x y => y.offset = x.offset + x.size) (chunkBuffer sha c buf) ∧
    ((chunkBuffer sha c buf).map ChunkRec.size).sum = buf.length ∧
    reconstructFile sha store ((chunkBuffer sha c buf).map ChunkRec.toRChunk) =
      Except.ok (buf, buf.length) := by
  have hspans := chunkBuffer_spans sha c buf
  have hflat : ((chunkBuffer sha c buf).map ChunkRec.data).flatten = buf := by
    have h := Spans.flatten_data hspans
    simpa using h
  refine ⟨hflat, ?_, Spans.chain hspans, ?_, ?_⟩
  · intro ch hch
    cases hl : chunkBuffer sha c buf with
    | nil => rw [hl] at hch; cases hch
    | cons ch0 rest =>
      rw [hl] at hch
      cases hch
      have hs := hspans
      rw [hl] at hs
      exact hs.1
  · have h := Spans.sum_sizes hspans
    simpa using h
  · unfold reconstructFile
    have hstrict := Spans.strict_offsets hspans
    have hstrict' : ((chunkBuffer sha c buf).map ChunkRec.toRChunk).Pairwise
        fun x y => sortKey x < sortKey y := by
      rw [List.pairwise_map]
      exact hstrict.imp fun h => by simpa [ChunkRec.toRChunk, sortKey] using h
    rw [mergeSort_key_fixpoint sortKey _ hstrict']
    rw [reconstructGo_toRChunk]
    rw [hflat]
    simp

/-- Two chunk references with the same offset but different payloads. -/
def dupOffA : RChunk := ⟨"hA", 1, some 0, some [1]⟩

/-- See `dupOffA`. -/
def dupOffB : RChunk := ⟨"hB", 1, some 0, some [2]⟩

unseal List.merge List.mergeSort in
/-- C10 counterexample: `reconstructFile` is *not* invariant under every
permutation of its input — the sort is stable, so two chunks sharing an
offset keep their relative input order and the two orders write different
byte sequences. -/
theorem reconstructFile_not_perm_invariant :
    ([dupOffA, dupOffB]).Perm [dupOffB, dupOffA] ∧
    reconstructFile (fun _ => "") (fun _ => none) [dupOffA, dupOffB] =
      Except.ok ([1, 2], 2) ∧
    reconstructFile (fun _ => "") (fun _ => none) [dupOffB, dupOffA] =
      Except.ok ([2, 1], 2) ∧
    reconstructFile (fun _ => "") (fun _ => none) [dupOffA, dupOffB] ≠
      reconstructFile (fun _ => "") (fun _ => none) [dupOffB, dupOffA] := by
  have h1 : reconstructFile (fun _ => "") (fun _ => none) [dupOffA, dupOffB] =
      Except.ok ([1, 2], 2) := rfl
  have h2 : reconstructFile (fun _ => "") (fun _ => none) [dupOffB, dupOffA] =
      Except.ok ([2, 1], 2) := rfl
  refine ⟨List.Perm.swap dupOffB dupOffA [], h1, h2, ?_⟩
  rw [h1, h2]
  simp

/-- C10 (amended): `reconstructFile` is invariant under permutation of its
input chunk list whenever the sort keys (`offset || 0`) are pairwise
distinct: the stable sort then has a unique sorted order, so reconstruction
writes the same byte sequence and returns the same `bytesWritten`.  (With
duplicate keys the stable sort preserves input order among ties and the
invariance fails, see `reconstructFile_not_perm_invariant`.) -/
theorem reconstructFile_perm_invariant (sha : List Nat → String)
    (store : String → Option (List Nat)) {l₁ l₂ : List RChunk}
    (hperm : l₁.Perm l₂) (hnodup : (l₁.map sortKey).Nodup) :
    reconstructFile sha store l₁ = reconstructFile sha store l₂ := by
  unfold reconstructFile
  rw [mergeSort_key_eq_of_perm sortKey hperm hnodup]

/-- Witness for `reconstructFile_perm_invariant`: two chunks with distinct
offsets reconstruct identically in either input order. -/
theorem reconstructFile_perm_invariant_witness :
    reconstructFile (fun _ => "") (fun _ => none)
      [⟨"x", 1, some 0, some [5]⟩, ⟨"y", 1, some 1, some [6]⟩] =
    reconstructFile (fun _ => "") (fun _ => none)
      [⟨"y", 1, some 1, some [6]⟩, ⟨"x", 1, some 0, some [5]⟩] := by
  exact reconstructFile_perm_invariant (fun _ => "") (fun _ => none)
    (List.Perm.swap (⟨"y", 1, some 1, some [6]⟩ : RChunk)
      (⟨"x", 1, some 0, some [5]⟩ : RChunk) [])
    (by decide)

theorem parseManifest_ok_manifest {m : ManifestJS} {p : ParsedManifest}
    (h : parseManifest m = Except.ok p) : p.manifest = m := by
  unfold parseManifest at h
  by_cases ht : detectManifestType m = "chunk-based"
  · rw [if_pos ht] at h
    cases hv : validateChunkManifest m with
    | error e => rw [hv] at h; cases h
    | ok u =>
      rw [hv] at h
      cases h
      rfl
  · rw [if_neg ht] at h
    cases hv : validateFileManifest m with
    | error e => rw [hv] at h; cases h
    | ok u =>
      rw [hv] at h
      cases h
      rfl

theorem changed_match_iff {oldFiles : List FileJS} {f : FileJS} :
    (match filesMapGet oldFiles f.filename with
      | some g => hasFileChanged g f
      | none => false) = true ↔
    ∃ g, filesMapGet oldFiles f.filename = some g ∧ hasFileChanged g f = true := by
  cases hg : filesMapGet oldFiles f.filename <;> simp

theorem contains_iff_mem {l : List String} {x : String} :
    l.contains x = true ↔ x ∈ l :=
  List.elem_iff

theorem chunksToUpload_mem_iff (oldM newM : ManifestJS) (h : String) :
    h ∈ setOfList
        (((setOfList (((newM.files.getD []).filter fun f =>
            (filesMapGet (oldM.files.getD []) f.filename).isNone).flatMap
              fileHashes)).filter fun h =>
          ¬ (setOfList ((getAllChunks oldM).map fun c =>
            c.hash.getD "")).contains h) ++
         ((setOfList (((newM.files.getD []).filter fun f =>
            match filesMapGet (oldM.files.getD []) f.filename with
            | some oldFile => hasFileChanged oldFile f
            | none => false).flatMap fileHashes)).filter fun h =>
          ¬ (setOfList ((getAllChunks oldM).map fun c =>
            c.hash.getD "")).contains h)) ↔
      ((∃ f ∈ newM.files.getD [],
          (∀ g ∈ oldM.files.getD [], g.filename ≠ f.filename) ∧ h ∈ fileHashes f) ∨
       (∃ f ∈ newM.files.getD [],
          (∃ g, filesMapGet (oldM.files.getD []) f.filename = some g ∧
            hasFileChanged g f = true) ∧ h ∈ fileHashes f)) ∧
      h ∉ (getAllChunks oldM).map fun c => c.hash.getD "" := by
  simp only [mem_setOfList, List.mem_append, List.mem_filter, List.mem_flatMap,
    Option.isNone_iff_eq_none, filesMapGet_eq_none_iff, changed_match_iff,
    decide_eq_true_eq, contains_iff_mem]
  rw [← or_and_right]
  refine and_congr ?_ Iff.rfl
  refine or_congr ?_ ?_ <;> exact exists_congr fun f => and_assoc

/-- Manifest A of the spec's worked example: `{a.bin: [h1, h2]}`. -/
def exManifestA : ManifestJS :=
  { version := some "1.0"
    buildType := none
    manifestType := some "chunk-based"
    files := some
      [{ filename := some "a.bin", path := none, url := none, totalSize := some 2
         chunks := some
           [{ hash := some "h1", size := some 1, offset := some 0, url := some "u1",
              data := none },
            { hash := some "h2", size := some 1, offset := some 1, url := some "u2",
              data := none }] }] }

/-- Manifest B of the spec's worked example:
`{a.bin: [h1, h3], b.bin: [h4]}`. -/
def exManifestB : ManifestJS :=
  { version := some "1.1"
    buildType := none
    manifestType := some "chunk-based"
    files := some
      [{ filename := some "a.bin", path := none, url := none, totalSize := some 2
         chunks := some
           [{ hash := some "h1", size := some 1, offset := some 0, url := some "u1",
              data := none },
            { hash := some "h3", size := some 1, offset := some 1, url := some "u3",
              data := none }] },
       { filename := some "b.bin", path := none, url := none, totalSize := some 1
         chunks := some
           [{ hash := some "h4", size := some 1, offset := some 0, url := some "u4",
              data := none }] }] }

/-- C1: whenever `detectDelta` succeeds, `chunksToUpload` is, as a set,
exactly the union of the chunk hashes of the new files (no old file has
their filename) and of the changed files (the old file of the same name
differs per `hasFileChanged`), minus every hash referenced anywhere in the
old manifest by any file; and on the spec's worked example the result is
`newFiles = [b.bin]`, `changedFiles = [a.bin]`,
`chunksToUpload = {h3, h4}`. -/
theorem detectDelta_chunksToUpload :
    (∀ oldM newM d, detectDelta oldM newM = Except.ok d →
      ∀ h, h ∈ d.chunksToUpload ↔
        ((∃ f ∈ newM.files.getD [],
            (∀ g ∈ oldM.files.getD [], g.filename ≠ f.filename) ∧ h ∈ fileHashes f) ∨
         (∃ f ∈ newM.files.getD [],
            (∃ g, filesMapGet (oldM.files.getD []) f.filename = some g ∧
              hasFileChanged g f = true) ∧ h ∈ fileHashes f)) ∧
        h ∉ (getAllChunks oldM).map fun c => c.hash.getD "") ∧
    (∃ d, detectDelta exManifestA exManifestB = Except.ok d ∧
      d.newFiles.map FileJS.filename = [some "b.bin"] ∧
      d.changedFiles.map FileJS.filename = [some "a.bin"] ∧
      d.chunksToUpload.Perm ["h3", "h4"]) := by
  constructor
  · intro oldM newM d hd
    unfold detectDelta at hd
    split at hd
    · cases hd
    · rename_i po hpo
      split at hd
      · cases hd
      · rename_i pn hpn
        split at hd
        · cases hd
        · rw [parseManifest_ok_manifest hpo, parseManifest_ok_manifest hpn] at hd
          injection hd with hd2
          subst hd2
          intro h
          exact chunksToUpload_mem_iff oldM newM h
  · refine ⟨_, rfl, rfl, rfl, ?_⟩
    exact List.Perm.swap "h3" "h4" []

/-- The changeset `detectDelta` computes on the spec's worked example. -/
def exDelta : Delta :=
  (detectDelta exManifestA exManifestB).toOption.getD
    ⟨[], [], [], [], [], [], [], ⟨0, 0, 0, 0, 0, 0⟩⟩

/-- Witness for `detectDelta_chunksToUpload`: the membership
characterisation instantiated at the worked example and the hash `"h3"`. -/
theorem detectDelta_chunksToUpload_witness :
    detectDelta exManifestA exManifestB = Except.ok exDelta ∧
    ("h3" ∈ exDelta.chunksToUpload ↔
      ((∃ f ∈ exManifestB.files.getD [],
          (∀ g ∈ exManifestA.files.getD [], g.filename ≠ f.filename) ∧
            "h3" ∈ fileHashes f) ∨
       (∃ f ∈ exManifestB.files.getD [],
          (∃ g, filesMapGet (exManifestA.files.getD []) f.filename = some g ∧
            hasFileChanged g f = true) ∧ "h3" ∈ fileHashes f)) ∧
      "h3" ∉ (getAllChunks exManifestA).map fun c => c.hash.getD "") :=
  ⟨rfl, detectDelta_chunksToUpload.1 exManifestA exManifestB exDelta rfl "h3"⟩

/-- The inductive invariant of an upload session: the processed list is
always exactly `range idx` (in order, no duplicate, no omission), the index
never passes the worklist, the loop body only runs at in-range indices, and
the loop only exits at the end. -/
def UMInv (n : Nat) (s : UMState) : Prop :=
  s.processed = List.range s.idx ∧ s.idx ≤ n ∧
  ((s.pc = Pc.mid ∨ s.pc = Pc.run ∨ (∃ g, s.pc = Pc.waitA g) ∨
    (∃ g, s.pc = Pc.waitB g)) → s.idx < n) ∧
  (s.pc = Pc.done → s.idx = n)

theorem UMInv_init (n : Nat) : UMInv n umInit := by
  refine ⟨rfl, Nat.zero_le n, ?_, ?_⟩
  · rintro (h | h | ⟨g, h⟩ | ⟨g, h⟩) <;> cases h
  · intro h; cases h

theorem UMInv_step {n : Nat} {s t : UMState} (hinv : UMInv n s)
    (hstep : UStep n s t) : UMInv n t := by
  obtain ⟨h1, h2, h3, h4⟩ := hinv
  cases hstep with
  | pauseCall => exact ⟨h1, h2, h3, h4⟩
  | resumeCall => exact ⟨h1, h2, h3, h4⟩
  | exitLoop hpc h =>
    refine ⟨h1, h2, ?_, ?_⟩
    · rintro (hx | hx | ⟨g, hx⟩ | ⟨g, hx⟩) <;> cases hx
    · intro _
      show s.idx = n
      omega
  | enterWaitA g hpc h hp hg =>
    refine ⟨h1, h2, fun _ => h, ?_⟩
    intro hx; cases hx
  | skipWaitA hpc h hp =>
    refine ⟨h1, h2, fun _ => h, ?_⟩
    intro hx; cases hx
  | wakeA g hpc hres =>
    refine ⟨h1, h2, fun _ => h3 (Or.inr (Or.inr (Or.inl ⟨g, hpc⟩))), ?_⟩
    intro hx; cases hx
  | enterWaitB g hpc hp hg =>
    refine ⟨h1, h2, fun _ => h3 (Or.inl hpc), ?_⟩
    intro hx; cases hx
  | skipWaitB hpc hp =>
    refine ⟨h1, h2, fun _ => h3 (Or.inl hpc), ?_⟩
    intro hx; cases hx
  | wakeB g hpc hres =>
    refine ⟨h1, h2, fun _ => h3 (Or.inr (Or.inr (Or.inr ⟨g, hpc⟩))), ?_⟩
    intro hx; cases hx
  | processChunk hpc =>
    have hlt : s.idx < n := h3 (Or.inr (Or.inl hpc))
    refine ⟨?_, ?_, ?_, ?_⟩
    · show s.processed ++ [s.idx] = List.range (s.idx + 1)
      rw [h1, List.range_succ]
    · show s.idx + 1 ≤ n
      omega
    · rintro (hx | hx | ⟨g, hx⟩ | ⟨g, hx⟩) <;> cases hx
    · intro hx; cases hx

/-- C4 (amended): for every interleaving of `pause()`/`resume()` with the
upload loop, the processed indices are always exactly `range idx` — each
worklist index is processed at most once, in order, with none skipped — and
a session that reaches `done` has processed every index exactly once.  (The
progress half of the original claim — that `resume()` always lets the loop
continue from the same index — fails when `pause()` is called again while
the loop is already suspended, see `pause_resume_deadlock`.) -/
theorem upload_loop_exactly_once (n : Nat) (s : UMState)
    (hreach : UReach n umInit s) :
    s.processed = List.range s.idx ∧
    s.processed.Nodup ∧
    (∀ i, i ∈ s.processed ↔ i < s.idx) ∧
    (s.pc = Pc.done → s.processed = List.range n) := by
  have hinv : UMInv n s := by
    induction hreach with
    | refl => exact UMInv_init n
    | tail hsteps hstep ih => exact UMInv_step ih hstep
  obtain ⟨h1, h2, h3, h4⟩ := hinv
  refine ⟨h1, ?_, ?_, ?_⟩
  · rw [h1]; exact List.nodup_range _
  · intro i; rw [h1]; exact List.mem_range
  · intro hdone; rw [h1, h4 hdone]

/-- The state after `pause()` is called once before the loop's first pause
check. -/
def pauseTrace1 : UMState := ⟨Pc.top, 0, [], true, some 0, 1, []⟩

/-- The loop suspends on the generation-0 promise. -/
def pauseTrace2 : UMState := ⟨Pc.waitA 0, 0, [], true, some 0, 1, []⟩

/-- A second `pause()` replaces promise and resolver; the generation-0
resolver is lost while the loop still awaits generation 0. -/
def pauseTrace3 : UMState := ⟨Pc.waitA 0, 0, [], true, some 1, 2, []⟩

/-- `resume()` clears the flag and resolves only the generation-1 promise:
the loop remains suspended on generation 0 forever. -/
def pauseStuck : UMState := ⟨Pc.waitA 0, 0, [], false, none, 2, [1]⟩

theorem pause_deadlock_reach : UReach 1 umInit pauseStuck := by
  have s1 : UStep 1 umInit pauseTrace1 := UStep.pauseCall umInit
  have s2 : UStep 1 pauseTrace1 pauseTrace2 :=
    UStep.enterWaitA pauseTrace1 0 rfl (by decide) rfl rfl
  have s3 : UStep 1 pauseTrace2 pauseTrace3 := UStep.pauseCall pauseTrace2
  have s4 : UStep 1 pauseTrace3 pauseStuck := UStep.resumeCall pauseTrace3
  exact Relation.ReflTransGen.tail (Relation.ReflTransGen.tail
    (Relation.ReflTransGen.tail (Relation.ReflTransGen.tail
      Relation.ReflTransGen.refl s1) s2) s3) s4

/-- The deadlock invariant: the loop is stuck awaiting the orphaned
generation-0 promise, which no future `pause()`/`resume()` can ever
resolve. -/
def StuckInv (s : UMState) : Prop :=
  s.pc = Pc.waitA 0 ∧ s.processed = [] ∧ 0 ∉ s.resolvedGens ∧
  (∀ g, s.currentGen = some g → 1 ≤ g) ∧ 1 ≤ s.nextGen

theorem StuckInv_step {n : Nat} {s t : UMState} (hinv : StuckInv s)
    (hstep : UStep n s t) : StuckInv t := by
  obtain ⟨h1, h2, h3, h4, h5⟩ := hinv
  cases hstep with
  | pauseCall =>
    refine ⟨h1, h2, h3, ?_, ?_⟩
    · intro g hg
      cases hg
      omega
    · show 1 ≤ s.nextGen + 1
      omega
  | resumeCall =>
    refine ⟨h1, h2, ?_, ?_, h5⟩
    · show 0 ∉ (match s.currentGen with
        | some g => g :: s.resolvedGens
        | none => s.resolvedGens)
      cases hc : s.currentGen with
      | none => exact h3
      | some g =>
        have hg := h4 g hc
        simp only [List.mem_cons]
        rintro (h | h)
        · omega
        · exact h3 h
    · intro g hg
      cases hg
  | exitLoop hpc h => rw [h1] at hpc; cases hpc
  | enterWaitA g hpc h hp hg => rw [h1] at hpc; cases hpc
  | skipWaitA hpc h hp => rw [h1] at hpc; cases hpc
  | wakeA g hpc hres =>
    rw [h1] at hpc
    cases hpc
    exact absurd hres h3
  | enterWaitB g hpc hp hg => rw [h1] at hpc; cases hpc
  | skipWaitB hpc hp => rw [h1] at hpc; cases hpc
  | wakeB g hpc hres => rw [h1] at hpc; cases hpc
  | processChunk hpc => rw [h1] at hpc; cases hpc

theorem StuckInv_reach {n : Nat} {s t : UMState} (hinv : StuckInv s)
    (hreach : UReach n s t) : StuckInv t := by
  induction hreach with
  | refl => exact hinv
  | tail hsteps hstep ih => exact StuckInv_step ih hstep

/-- C4 counterexample: under the interleaving `pause(); (loop reaches the
pause wait); pause(); resume()` the second `pause()` overwrites the unsolved
promise's resolver, so although `resume()` has run and the pause flag is
clear, the loop is suspended forever: worklist index 0 is never processed
and the session never completes — "each worklist index is processed exactly
once ... after resume() it continues from that same index" fails for this
interleaving. -/
theorem pause_resume_deadlock :
    UReach 1 umInit pauseStuck ∧
    pauseStuck.isPaused = false ∧
    (∀ s, UReach 1 pauseStuck s → s.processed = [] ∧ s.pc ≠ Pc.done) := by
  refine ⟨pause_deadlock_reach, rfl, ?_⟩
  intro s hs
  have hstuck : StuckInv s := by
    refine StuckInv_reach ⟨rfl, rfl, ?_, ?_, by decide⟩ hs
    · intro h
      simp [pauseStuck] at h
    · intro g hg
      cases hg
  refine ⟨hstuck.2.1, ?_⟩
  rw [hstuck.1]
  intro h
  cases h

/-- Witness for `upload_loop_exactly_once`: the pause-free run over a
one-chunk worklist reaches `done` having processed exactly `[0]`. -/
theorem upload_loop_exactly_once_witness :
    UReach 1 umInit ⟨Pc.done, 1, [0], false, none, 0, []⟩ ∧
    (⟨Pc.done, 1, [0], false, none, 0, []⟩ : UMState).processed = List.range 1 := by
  have s1 : UStep 1 umInit ⟨Pc.mid, 0, [], false, none, 0, []⟩ :=
    UStep.skipWaitA umInit rfl (by decide) (by intro h; simp [umInit] at h)
  have s2 : UStep 1 (⟨Pc.mid, 0, [], false, none, 0, []⟩ : UMState)
      ⟨Pc.run, 0, [], false, none, 0, []⟩ :=
    UStep.skipWaitB _ rfl (by intro h; simp at h)
  have s3 : UStep 1 (⟨Pc.run, 0, [], false, none, 0, []⟩ : UMState)
      ⟨Pc.top, 1, [0], false, none, 0, []⟩ :=
    UStep.processChunk _ rfl
  have s4 : UStep 1 (⟨Pc.top, 1, [0], false, none, 0, []⟩ : UMState)
      ⟨Pc.done, 1, [0], false, none, 0, []⟩ :=
    UStep.exitLoop _ rfl (by decide)
  have hreach : UReach 1 umInit ⟨Pc.done, 1, [0], false, none, 0, []⟩ :=
    Relation.ReflTransGen.tail (Relation.ReflTransGen.tail
      (Relation.ReflTransGen.tail (Relation.ReflTransGen.tail
        Relation.ReflTransGen.refl s1) s2) s3) s4
  exact ⟨hreach,
    (upload_loop_exactly_once 1 ⟨Pc.done, 1, [0], false, none, 0, []⟩ hreach).2.2.2 rfl⟩

end Uploader
